import Mathlib

/-!
Verification of the primer-pair selection programs
(`Primer_Pair_SL.py`, randomized search; `Primer_Pair_SL_V2.py`, ILP).

The Python code is shallowly embedded as follows.

* A `collections.Counter` built by repeated `+= 1` holds only positive
  counts; it is modelled as an association list `List (Char × ℕ)` whose
  keys are distinct.  `counterGet c b` models `c[b]` / `c.get(b, 0)`
  (missing keys read as `0`), and `counterAdd` models `Counter.__add__`
  (entries of the left operand first, with summed counts, then the
  entries of the right operand whose key is new).
* `calculate_nucleotide_frequencies` takes the sequences of the primer
  dictionary in order (`primers.values()`).  The Python code sizes the
  per-position counter array by the length of the first sequence
  (`len(next(iter(primers.values())))`): an empty dictionary raises
  `StopIteration`, and a sequence longer than the first raises
  `IndexError`; both are modelled with `Except.error`.  A sequence
  shorter than the first contributes only to positions it covers.
  There is no validation of the nucleotide alphabet anywhere.
* `calculate_diversity_score` sums `abs(ideal_count - count)` over
  `pos.values()` for each position, i.e. over the counts actually
  stored in the counter.  Scores are modelled in `ℚ` (the Python float
  arithmetic on quarters of small integers is exact).
* `select_optimal_primers` runs a fixed number of random trials; the
  randomness is made explicit as the list `draws` of sampled key sets
  (each `random.sample` result, which always consists of keys of the
  corresponding pool).  The loop body is `sopStep`; the fold carries
  the running minimum (`best_score` starts at infinity, modelled as
  `Option ℚ` with `none` for infinity), the best combination, and, as
  in the source, the `total_frequencies` value of the trial executed
  last, which is what the function finally returns.
* `optimal_primer_counts` (V2) is embedded with `Nat.sqrt` for
  `int(math.sqrt(n))` and `(n + i - 1) / i` for `math.ceil(n / i)`;
  both agree with the float computation on every realistic input.
* The ILP of V2 is embedded by its satisfaction predicate
  `satisfiesILP` over an assignment of the binary variables
  (`String → Bool`), the constraints being the two cardinality
  equalities and, for every used pair whose two names are keys of the
  respective pools, `forwardVar + reverseVar ≤ 1`.  The extraction of
  the selected primers (`varValue == 1`) is `selectedPrimers`.
* The pair generation of V2 (`new_assigned_pairs`) builds the cross
  product of the selected forward and reverse key lists in iteration
  order and truncates it, and `create_nucleotide_matrix` reads the four
  counts `frequencies[pos].get(base, 0)` for `base in 'ATCG'` and
  appends the column sums, modelled by `create_nucleotide_matrix_sums`.
-/

namespace PrimerPairs

/-- A Python `Counter` as an association list from characters to counts. -/
abbrev Counter := List (Char × ℕ)

/-- Reading a key from a `Counter`: a missing key reads as `0`. -/
def counterGet (c : Counter) (b : Char) : ℕ :=
  ((c.find? (fun kv => kv.1 == b)).map Prod.snd).getD 0

/-- The `Counter` of a list of characters: each distinct character with
its multiplicity. -/
def toCounter (l : List Char) : Counter :=
  l.dedup.map (fun c => (c, l.count c))

/-- `Counter.__add__`: entries of `a` with the counts of `b` added, then
the entries of `b` whose key does not occur in `a`. -/
def counterAdd (a b : Counter) : Counter :=
  a.map (fun kv => (kv.1, kv.2 + counterGet b kv.1)) ++
    b.filter (fun kv => !(a.any (fun kv2 => kv2.1 == kv.1)))

/-- The iteration order of the string literal `'ATCG'` in the source. -/
def atcg : List Char := ['A', 'T', 'C', 'G']

/-- The characters contributed to position `i`: each sequence of length
`> i` contributes its `i`-th character, in input order. -/
def posChars (primers : List (List Char)) (i : ℕ) : List Char :=
  primers.filterMap (fun s => s[i]?)

/-- `calculate_nucleotide_frequencies` (SL.py, lines 15-20): the counter
array is sized by the first sequence; an empty input raises
`StopIteration` and a sequence longer than the first raises
`IndexError`.  No other validation is performed. -/
def calculate_nucleotide_frequencies (primers : List (List Char)) :
    Except String (List Counter) :=
  match primers with
  | [] => .error "StopIteration"
  | p0 :: _ =>
      if primers.all (fun s => s.length ≤ p0.length) then
        .ok ((List.range p0.length).map (fun i => toCounter (posChars primers i)))
      else .error "IndexError"

/-- `calculate_diversity_score` (SL.py, lines 23-26): sum of
`abs(ideal_count - count)` over the counts stored at each position,
with `ideal_count = total_primers / 4`. -/
def calculate_diversity_score (nucleotide_counts : List Counter)
    (total_primers : ℕ) : ℚ :=
  (nucleotide_counts.map (fun pos =>
    (pos.map (fun kv => |(total_primers : ℚ) / 4 - (kv.2 : ℚ)|)).sum)).sum

/-- The score formula as the specification words it: a sum over all
(position, base) pairs with `base ∈ {A,T,C,G}`, a base absent from a
position's mapping counting as `0`. -/
def diversityScoreAllBases (freq : List Counter) (total : ℕ) : ℚ :=
  (freq.map (fun pos =>
    (atcg.map (fun b => |(total : ℚ) / 4 - (counterGet pos b : ℚ)|)).sum)).sum

/-! The stochastic selector (SL.py, lines 29-53). -/

/-- A primer pool: names with sequences, in dictionary order. -/
abbrev Pool := List (String × List Char)

/-- Dictionary lookup `pool[k]`. -/
def alookup (pool : Pool) (k : String) : Option (List Char) :=
  (pool.find? (fun kv => kv.1 == k)).map Prod.snd

/-- The dictionary comprehension `{key: pool[key] for key in keys}`.
The sampled keys always are keys of the pool, so the lookup never
fails on the executions the source performs. -/
def subPool (pool : Pool) (keys : List String) : Pool :=
  keys.filterMap (fun k => (alookup pool k).map (fun s => (k, s)))

/-- Position frequencies of the sequences of a pool. -/
def freqOfPool (pool : Pool) : Except String (List Counter) :=
  calculate_nucleotide_frequencies (pool.map Prod.snd)

/-- The hardcoded `for i in range(8)` combination of the forward and
reverse frequency arrays; an array shorter than 8 raises `IndexError`. -/
def combine8 (f g : List Counter) : Except String (List Counter) :=
  if 8 ≤ f.length ∧ 8 ≤ g.length then
    .ok ((List.range 8).map (fun i => counterAdd (f.getD i []) (g.getD i [])))
  else .error "IndexError"

/-- The strict comparison `score < best_score`, where `best_score`
starts at `float('inf')` (modelled by `none`). -/
def isBetter (best : Option ℚ) (s : ℚ) : Bool :=
  match best with
  | none => true
  | some b => decide (s < b)

/-- The running state of the trial loop: `best_score`,
`best_combination`, and the `total_frequencies` of the trial executed
last (the loop variable that survives the loop). -/
abbrev SOPState := Option ℚ × Option (Pool × Pool) × Option (List Counter)

/-- One iteration of the trial loop of `select_optimal_primers`. -/
def sopStep (fwd rev : Pool) (nf nr : ℕ) (st : SOPState)
    (draw : List String × List String) : Except String SOPState := do
  let sf := subPool fwd draw.1
  let sr := subPool rev draw.2
  let ff ← freqOfPool sf
  let fr ← freqOfPool sr
  let tf ← combine8 ff fr
  let score := calculate_diversity_score tf (nf + nr)
  if isBetter st.1 score then
    return (some score, some (sf, sr), some tf)
  else
    return (st.1, st.2.1, some tf)

/-- `select_optimal_primers` (SL.py, lines 29-53), with the stream of
random draws made explicit: returns `best_combination`, `best_score`,
and the `total_frequencies` of the last trial. -/
def select_optimal_primers (fwd rev : Pool) (nf nr : ℕ)
    (draws : List (List String × List String)) :
    Except String (Option (Pool × Pool) × Option ℚ × Option (List Counter)) := do
  let st ← draws.foldlM (sopStep fwd rev nf nr) (none, none, none)
  return (st.2.1, st.1, st.2.2)

/-! The exact selector (V2, lines 50-130). -/

/-- `optimal_primer_counts`: the descending divisor search from
`int(math.sqrt(n))`, with `ceilDiv n i` for `math.ceil(n / i)`. -/
def ceilDiv (n i : ℕ) : ℕ := (n + i - 1) / i

/-- The loop `for i in range(root, 0, -1)` of `optimal_primer_counts`
(V2, lines 50-58); `none` means the loop fell through. -/
def opcLoop (n mf mr : ℕ) : ℕ → Option (ℕ × ℕ)
  | 0 => none
  | i + 1 =>
      if i + 1 ≤ mf ∧ ceilDiv n (i + 1) ≤ mr then some (i + 1, ceilDiv n (i + 1))
      else if ceilDiv n (i + 1) ≤ mf ∧ i + 1 ≤ mr then some (ceilDiv n (i + 1), i + 1)
      else opcLoop n mf mr i

/-- `optimal_primer_counts` (V2, lines 50-58). -/
def optimal_primer_counts (n mf mr : ℕ) : ℕ × ℕ :=
  match opcLoop n mf mr (Nat.sqrt n) with
  | some p => p
  | none => (min mf mr, min mf mr)

/-- The value of a binary ILP variable. -/
def b2n (x : Bool) : ℕ := cond x 1 0

/-- The number of selected keys under an assignment of the binary
variables. -/
def countSelected (keys : List String) (x : String → Bool) : ℕ :=
  (keys.filter x).length

/-- The extraction `[key for key in vars if vars[key].varValue == 1]`
(V2, lines 117-118). -/
def selectedPrimers (keys : List String) (x : String → Bool) : List String :=
  keys.filter x

/-- The constraint system of the ILP of V2 (lines 104-110) on an
assignment of the binary variables: both cardinality equalities, and,
for every used pair whose names are keys of the respective pools,
`forwardVar + reverseVar ≤ 1`. -/
def satisfiesILP (fwdKeys revKeys : List String)
    (used : List (String × String)) (nf nr : ℕ)
    (xf xr : String → Bool) : Prop :=
  countSelected fwdKeys xf = nf ∧ countSelected revKeys xr = nr ∧
    ∀ p ∈ used, p.1 ∈ fwdKeys → p.2 ∈ revKeys →
      b2n (xf p.1) + b2n (xr p.2) ≤ 1

/-- The cross product `[(fwd, rev) for fwd in F for rev in R]`
(V2, lines 121-123). -/
def crossPairs (F R : List String) : List (String × String) :=
  F.bind (fun f => R.map (fun r => (f, r)))

/-- `new_assigned_pairs` after the truncation of V2, lines 126-130. -/
def new_assigned_pairs (F R : List String) (req : ℕ) :
    List (String × String) :=
  if (crossPairs F R).length < req then
    (crossPairs F R).take (crossPairs F R).length
  else (crossPairs F R).take req

/-- The column sums appended by `create_nucleotide_matrix` (SL.py,
lines 56-66): for each of the 8 positions, the sum of the four counts
`frequencies[pos].get(base, 0)` for `base in 'ATCG'`. -/
def create_nucleotide_matrix_sums (freq : List Counter) : List ℕ :=
  (List.range 8).map (fun pos =>
    (atcg.map (fun b => counterGet (freq.getD pos []) b)).sum)

/-! Supporting lemmas about `Counter`. -/

theorem counterGet_nil (b : Char) : counterGet [] b = 0 := rfl

theorem counterGet_cons (k : Char) (v : ℕ) (rest : Counter) (b : Char) :
    counterGet ((k, v) :: rest) b = if k == b then v else counterGet rest b := by
  by_cases h : k == b <;> simp [counterGet, List.find?, h]

theorem counterGet_of_mem (pos : Counter) (kv : Char × ℕ)
    (hnd : (pos.map Prod.fst).Nodup) (hmem : kv ∈ pos) :
    counterGet pos kv.1 = kv.2 := by
  induction pos with
  | nil => cases hmem
  | cons hd tl ih =>
      obtain ⟨k0, v0⟩ := hd
      simp only [List.map_cons, List.nodup_cons] at hnd
      rcases List.mem_cons.mp hmem with h | h
      · subst h
        simp [counterGet_cons]
      · have hk : k0 ≠ kv.1 := by
          intro he
          exact hnd.1 (he ▸ List.mem_map_of_mem Prod.fst h)
        rw [counterGet_cons, if_neg (by simpa using hk), ih hnd.2 h]

theorem toCounter_map_fst (l : List Char) :
    (toCounter l).map Prod.fst = l.dedup := by
  simp only [toCounter, List.map_map]
  show List.map (fun c => c) l.dedup = l.dedup
  exact List.map_id l.dedup

theorem toCounter_keys_nodup (l : List Char) :
    ((toCounter l).map Prod.fst).Nodup := by
  rw [toCounter_map_fst]; exact List.nodup_dedup l

theorem counterGet_toCounter (l : List Char) (b : Char) :
    counterGet (toCounter l) b = l.count b := by
  by_cases hb : b ∈ l
  · have hmem : (b, l.count b) ∈ toCounter l :=
      List.mem_map_of_mem (fun c => (c, l.count c)) (List.mem_dedup.mpr hb)
    exact counterGet_of_mem (toCounter l) (b, l.count b)
      (toCounter_keys_nodup l) hmem
  · have hfind : (toCounter l).find? (fun kv => kv.1 == b) = none := by
      rw [List.find?_eq_none]
      intro kv hkv
      obtain ⟨c, hc, rfl⟩ := List.mem_map.mp hkv
      have : c ∈ l := List.mem_dedup.mp hc
      simp only [beq_iff_eq]
      intro he
      exact hb (he ▸ this)
    rw [counterGet, hfind]
    simp [List.count_eq_zero_of_not_mem hb]

theorem sum_toCounter_values (l : List Char) :
    ((toCounter l).map Prod.snd).sum = l.length := by
  rw [toCounter, List.map_map]
  simpa [Function.comp] using List.sum_map_count_dedup_eq_length l

/-- C6 evaluation: on the single sequence `"a"` — the wrong case and an
alphabet violation — the frequency function returns a table counting
the raw character, instead of failing with any validation error. -/
theorem freq_no_validation_on_invalid_char :
    calculate_nucleotide_frequencies [['a']] = .ok [[('a', 1)]] := rfl

/-- C2 (counterexample): on the frequency table `[{A: 4}]` with
`totalSequences = 4`, the code scores `|1 - 4| = 3`, while the claimed
formula (absent bases counting as `0`) gives `3 + 1 + 1 + 1 = 6`. -/
theorem diversity_score_skips_absent_bases :
    calculate_diversity_score [[('A', 4)]] 4 = 3 ∧
    diversityScoreAllBases [[('A', 4)]] 4 = 6 ∧
    calculate_diversity_score [[('A', 4)]] 4 ≠ diversityScoreAllBases [[('A', 4)]] 4 := by
  refine ⟨?_, ?_, ?_⟩
  · simp [calculate_diversity_score]
    norm_num
  · simp [diversityScoreAllBases, atcg, counterGet_cons, counterGet_nil]
    norm_num
  · simp [calculate_diversity_score, diversityScoreAllBases, atcg,
      counterGet_cons, counterGet_nil]
    norm_num

/-- C2 (amended): the diversity score equals the sum, over every
position and every base stored at that position, of
`|idealCount - freq[position][base]|`; bases absent from a position's
mapping contribute nothing. -/
theorem diversity_score_eq_sum_over_present_keys (freq : List Counter)
    (total : ℕ) (h : ∀ pos ∈ freq, (pos.map Prod.fst).Nodup) :
    calculate_diversity_score freq total =
      (freq.map (fun pos =>
        ((pos.map Prod.fst).map
          (fun b => |(total : ℚ) / 4 - (counterGet pos b : ℚ)|)).sum)).sum := by
  unfold calculate_diversity_score
  congr 1
  apply List.map_congr_left
  intro pos hpos
  rw [List.map_map]
  congr 1
  apply List.map_congr_left
  intro kv hkv
  simp [counterGet_of_mem pos kv (h pos hpos) hkv]

/-- C2 witness: the amended equation evaluated on a concrete table. -/
theorem diversity_score_eq_sum_over_present_keys_witness :
    calculate_diversity_score [[('A', 2), ('T', 1)]] 3 =
      (([[('A', 2), ('T', 1)]] : List Counter).map (fun pos =>
        ((pos.map Prod.fst).map
          (fun b => |((3 : ℕ) : ℚ) / 4 - (counterGet pos b : ℚ)|)).sum)).sum :=
  diversity_score_eq_sum_over_present_keys [[('A', 2), ('T', 1)]] 3 (by decide)

/-- C8: pair assignment emits the cross product of the two selected name
lists in iteration order, truncated to the requested count; for
duplicate-free name lists the result is duplicate-free and never longer
than the requested count. -/
theorem pair_assignment_spec (F R : List String) (req : ℕ)
    (hF : F.Nodup) (hR : R.Nodup) :
    new_assigned_pairs F R req = (crossPairs F R).take req ∧
    (new_assigned_pairs F R req).Nodup ∧
    (new_assigned_pairs F R req).length ≤ req := by
  have hprod : crossPairs F R = F ×ˢ R := rfl
  have heq : new_assigned_pairs F R req = (crossPairs F R).take req := by
    unfold new_assigned_pairs
    split
    · next h => rw [List.take_length, List.take_of_length_le (le_of_lt h)]
    · rfl
  refine ⟨heq, ?_, ?_⟩
  · rw [heq]
    exact List.Nodup.sublist (List.take_sublist req _)
      (by rw [hprod]; exact hF.product hR)
  · rw [heq, List.length_take]
    exact min_le_left _ _

/-- C8 witness: the pair-assignment properties at a concrete selection. -/
theorem pair_assignment_spec_witness :
    new_assigned_pairs ["F1", "F2"] ["R1"] 1 =
      (crossPairs ["F1", "F2"] ["R1"]).take 1 ∧
    (new_assigned_pairs ["F1", "F2"] ["R1"] 1).Nodup ∧
    (new_assigned_pairs ["F1", "F2"] ["R1"] 1).length ≤ 1 :=
  pair_assignment_spec ["F1", "F2"] ["R1"] 1 (by decide) (by decide)

/-- C3: any assignment satisfying the ILP constraints never selects both
members of a used pair whose names are keys of the respective pools. -/
theorem exact_selector_exclusion (fwdKeys revKeys : List String)
    (used : List (String × String)) (nf nr : ℕ) (xf xr : String → Bool)
    (h : satisfiesILP fwdKeys revKeys used nf nr xf xr) :
    ∀ p ∈ used, p.1 ∈ fwdKeys → p.2 ∈ revKeys →
      ¬(p.1 ∈ selectedPrimers fwdKeys xf ∧ p.2 ∈ selectedPrimers revKeys xr) := by
  intro p hp hf hr hsel
  have h1 : xf p.1 = true := (List.mem_filter.mp hsel.1).2
  have h2 : xr p.2 = true := (List.mem_filter.mp hsel.2).2
  have h3 := h.2.2 p hp hf hr
  rw [h1, h2] at h3
  simp [b2n] at h3

/-- C3 witness: a concrete satisfying assignment and the exclusion it
implies. -/
theorem exact_selector_exclusion_witness :
    satisfiesILP ["F1", "F2"] ["R1"] [("F1", "R1")] 1 1
      (fun s => s == "F2") (fun _ => true) ∧
    ∀ p ∈ [("F1", "R1")], p.1 ∈ ["F1", "F2"] → p.2 ∈ ["R1"] →
      ¬(p.1 ∈ selectedPrimers ["F1", "F2"] (fun s => s == "F2") ∧
        p.2 ∈ selectedPrimers ["R1"] (fun _ => true)) := by
  have hs : satisfiesILP ["F1", "F2"] ["R1"] [("F1", "R1")] 1 1
      (fun s => s == "F2") (fun _ => true) :=
    ⟨rfl, rfl, by decide⟩
  exact ⟨hs, exact_selector_exclusion _ _ _ _ _ _ _ hs⟩

/-- C4: with one forward primer, one reverse primer, cardinalities 1 and
1, and the single pair already used, no assignment satisfies the
constraints; the extraction step, run on the zeroed variables an
unsuccessful solve leaves behind, still returns (empty) selections —
there is no typed infeasibility error anywhere in the code. -/
theorem exact_selector_silent_on_infeasible :
    (¬ ∃ xf xr, satisfiesILP ["F1"] ["R1"] [("F1", "R1")] 1 1 xf xr) ∧
    selectedPrimers ["F1"] (fun _ => false) = [] ∧
    selectedPrimers ["R1"] (fun _ => false) = [] := by
  refine ⟨?_, rfl, rfl⟩
  rintro ⟨xf, xr, h1, h2, h3⟩
  have hf : xf "F1" = true := by
    cases hx : xf "F1" with
    | false => simp [countSelected, List.filter, hx] at h1
    | true => rfl
  have hr : xr "R1" = true := by
    cases hx : xr "R1" with
    | false => simp [countSelected, List.filter, hx] at h2
    | true => rfl
  have h4 := h3 ("F1", "R1") (by simp) (by simp) (by simp)
  rw [hf, hr] at h4
  simp [b2n] at h4

/-! Supporting lemmas for the frequency-table claims. -/

theorem posChars_length (L i : ℕ) (hi : i < L) :
    ∀ primers : List (List Char), (∀ s ∈ primers, s.length = L) →
      (posChars primers i).length = primers.length := by
  intro primers
  induction primers with
  | nil => intro _; rfl
  | cons s rest ih =>
      intro hlen
      have hib : i < s.length := by rw [hlen s (by simp)]; exact hi
      have hv : s[i]? = some (s[i]) := List.getElem?_eq_getElem hib
      simp only [posChars, List.filterMap_cons, hv, List.length_cons]
      have hrest := ih (fun t ht => hlen t (by simp [ht]))
      simp only [posChars] at hrest
      rw [hrest]

theorem calc_freq_eq_of_eqlen (p0 : List Char) (rest : List (List Char))
    (L : ℕ) (hlen : ∀ s ∈ p0 :: rest, s.length = L) :
    calculate_nucleotide_frequencies (p0 :: rest) =
      .ok ((List.range L).map (fun i => toCounter (posChars (p0 :: rest) i))) := by
  have hL : p0.length = L := hlen p0 (by simp)
  have hall : ((p0 :: rest).all (fun s => s.length ≤ p0.length)) = true := by
    rw [List.all_eq_true]
    intro s hs
    simp only [decide_eq_true_eq]
    rw [hlen s hs, hL]
  subst hL
  simp only [calculate_nucleotide_frequencies, hall, if_true]

/-- C9: on a non-empty collection of equal-length sequences, the
frequency function succeeds and, at every position, the stored counts
sum to the number of input sequences. -/
theorem count_conservation (primers : List (List Char)) (L : ℕ)
    (hne : primers ≠ []) (hlen : ∀ s ∈ primers, s.length = L) :
    ∃ t, calculate_nucleotide_frequencies primers = .ok t ∧
      ∀ pos ∈ t, (pos.map Prod.snd).sum = primers.length := by
  obtain ⟨p0, rest, rfl⟩ := List.exists_cons_of_ne_nil hne
  refine ⟨_, calc_freq_eq_of_eqlen p0 rest L hlen, ?_⟩
  intro pos hpos
  simp only [List.mem_map, List.mem_range] at hpos
  obtain ⟨i, hi, rfl⟩ := hpos
  rw [sum_toCounter_values]
  exact posChars_length L i hi (p0 :: rest) hlen

/-- C9 witness: count conservation on a concrete pool. -/
theorem count_conservation_witness :
    ∃ t, calculate_nucleotide_frequencies [['A', 'T'], ['C', 'G']] = .ok t ∧
      ∀ pos ∈ t, (pos.map Prod.snd).sum =
        ([['A', 'T'], ['C', 'G']] : List (List Char)).length :=
  count_conservation [['A', 'T'], ['C', 'G']] 2 (by decide) (by decide)

theorem sum_map_add_distrib {α : Type} (l : List α) (f g : α → ℕ) :
    (l.map (fun a => f a + g a)).sum = (l.map f).sum + (l.map g).sum := by
  induction l with
  | nil => rfl
  | cons a tl ih => simp [ih]; omega

theorem sum_map_ite_count (bs : List Char) (hbs : bs.Nodup) (c : Char) :
    (bs.map (fun b => if c == b then 1 else 0)).sum =
      if c ∈ bs then 1 else 0 := by
  induction bs with
  | nil => simp
  | cons b0 tl ih =>
      have hnd := List.nodup_cons.mp hbs
      rw [List.map_cons, List.sum_cons, ih hnd.2]
      by_cases h : c = b0
      · subst h
        have h2 : c ∉ tl := hnd.1
        simp [h2]
      · simp [List.mem_cons, h]

theorem sum_count_eq_countP (bs l : List Char) (hbs : bs.Nodup) :
    (bs.map (fun b => l.count b)).sum =
      l.countP (fun c => decide (c ∈ bs)) := by
  induction l with
  | nil => simp
  | cons c tl ih =>
      rw [List.countP_cons]
      have hstep : ∀ b ∈ bs,
          (c :: tl).count b = tl.count b + (if c == b then 1 else 0) :=
        fun b _ => List.count_cons b c tl
      rw [List.map_congr_left hstep, sum_map_add_distrib, ih,
        sum_map_ite_count bs hbs c]
      simp

theorem sum_atcg_counterGet (l : List Char) :
    (atcg.map (fun b => counterGet (toCounter l) b)).sum =
      l.countP (fun c => decide (c ∈ atcg)) := by
  have h : ∀ b ∈ atcg, counterGet (toCounter l) b = l.count b :=
    fun b _ => counterGet_toCounter l b
  rw [List.map_congr_left h]
  exact sum_count_eq_countP atcg l (by decide)

theorem getD_map_range {α : Type} (n i : ℕ) (hi : i < n) (f : ℕ → α) (d : α) :
    ((List.range n).map f).getD i d = f i := by
  rw [List.getD_eq_getElem?_getD, List.getElem?_map, List.getElem?_range hi]
  rfl

/-- C10: when some sequence carries a character outside `{A,T,C,G}` at
position `i`, the matrix column sum at that position — which reads only
the four bases via `.get(base, 0)` — is strictly below the number of
sequences. -/
theorem matrix_sum_row_undercounts (primers : List (List Char)) (i : ℕ)
    (hne : primers ≠ []) (hlen : ∀ s ∈ primers, s.length = 8) (hi : i < 8)
    (hbad : ∃ s ∈ primers, ∃ c, s[i]? = some c ∧ c ∉ atcg) :
    ∃ t, calculate_nucleotide_frequencies primers = .ok t ∧
      (create_nucleotide_matrix_sums t).getD i 0 < primers.length := by
  obtain ⟨p0, rest, rfl⟩ := List.exists_cons_of_ne_nil hne
  refine ⟨_, calc_freq_eq_of_eqlen p0 rest 8 hlen, ?_⟩
  rw [create_nucleotide_matrix_sums, getD_map_range 8 i hi,
    getD_map_range 8 i hi, sum_atcg_counterGet]
  set l := posChars (p0 :: rest) i with hl
  have hlength : l.length = (p0 :: rest).length :=
    posChars_length 8 i hi (p0 :: rest) hlen
  rw [← hlength, List.length_eq_countP_add_countP (fun c => decide (c ∈ atcg)) l]
  have hpos : 0 < l.countP (fun c => decide (¬(decide (c ∈ atcg) = true))) := by
    rw [List.countP_pos_iff]
    obtain ⟨s, hs, c, hsc, hc⟩ := hbad
    refine ⟨c, ?_, by simp [hc]⟩
    rw [hl]
    exact List.mem_filterMap.mpr ⟨s, hs, hsc⟩
  omega

/-- C10 witness: a concrete pool with an `'x'` at position 0. -/
theorem matrix_sum_row_undercounts_witness :
    ∃ t, calculate_nucleotide_frequencies
        [['x', 'A', 'A', 'A', 'A', 'A', 'A', 'A']] = .ok t ∧
      (create_nucleotide_matrix_sums t).getD 0 0 <
        ([['x', 'A', 'A', 'A', 'A', 'A', 'A', 'A']] : List (List Char)).length :=
  matrix_sum_row_undercounts [['x', 'A', 'A', 'A', 'A', 'A', 'A', 'A']] 0
    (by decide) (by decide) (by decide)
    ⟨['x', 'A', 'A', 'A', 'A', 'A', 'A', 'A'], by decide, 'x', rfl, by decide⟩

theorem sum_eq_zero_iff_of_nonneg :
    ∀ l : List ℚ, (∀ x ∈ l, 0 ≤ x) → (l.sum = 0 ↔ ∀ x ∈ l, x = 0) := by
  intro l
  induction l with
  | nil => intro _; simp
  | cons a tl ih =>
      intro h
      have ha : 0 ≤ a := h a (by simp)
      have htl : ∀ x ∈ tl, 0 ≤ x := fun x hx => h x (by simp [hx])
      have hs : 0 ≤ tl.sum := List.sum_nonneg htl
      rw [List.sum_cons]
      constructor
      · intro h0
        have ha0 : a = 0 := by linarith
        have hs0 : tl.sum = 0 := by linarith
        intro x hx
        rcases List.mem_cons.mp hx with rfl | hx
        · exact ha0
        · exact ((ih htl).mp hs0) x hx
      · intro hz
        rw [hz a (by simp), (ih htl).mpr (fun x hx => hz x (by simp [hx])), add_zero]

theorem sum_map_const_num (xs : List Char) (f : Char → ℕ) (m : ℕ)
    (h : ∀ x ∈ xs, f x = m) : (xs.map f).sum = xs.length * m := by
  induction xs with
  | nil => simp
  | cons a tl ih =>
      rw [List.map_cons, List.sum_cons, h a (by simp),
        ih (fun x hx => h x (by simp [hx])), List.length_cons]
      ring

theorem pos_score_zero_iff (l : List Char) (n : ℕ)
    (hn : l.length = n) (hnz : 0 < n) (halpha : ∀ c ∈ l, c ∈ atcg) :
    (((toCounter l).map (fun kv => |(n : ℚ) / 4 - (kv.2 : ℚ)|)).sum = 0 ↔
      ∀ b ∈ atcg, (counterGet (toCounter l) b : ℚ) = (n : ℚ) / 4) := by
  have hnonneg : ∀ x ∈ (toCounter l).map (fun kv => |(n : ℚ) / 4 - (kv.2 : ℚ)|), 0 ≤ x := by
    intro x hx
    obtain ⟨kv, _, rfl⟩ := List.mem_map.mp hx
    exact abs_nonneg _
  rw [sum_eq_zero_iff_of_nonneg _ hnonneg]
  constructor
  · intro h0
    have hcnt : ∀ c ∈ l.dedup, (l.count c : ℚ) = (n : ℚ) / 4 := by
      intro c hc
      have hmem : (c, l.count c) ∈ toCounter l :=
        List.mem_map_of_mem (fun c => (c, l.count c)) hc
      have h2p := h0 _ (List.mem_map_of_mem _ hmem)
      have h2 : |(n : ℚ) / 4 - (l.count c : ℚ)| = 0 := h2p
      have h3 : (n : ℚ) / 4 - (l.count c : ℚ) = 0 := abs_eq_zero.mp h2
      linarith
    have hcnt4 : ∀ c ∈ l.dedup, 4 * l.count c = n := by
      intro c hc
      have h1 := hcnt c hc
      have h2 : ((4 * l.count c : ℕ) : ℚ) = (n : ℚ) := by push_cast; linarith
      exact_mod_cast h2
    have hlne : l ≠ [] := by
      intro he; rw [he] at hn; simp at hn; omega
    obtain ⟨x, hx⟩ := List.exists_mem_of_ne_nil l hlne
    have hxd : x ∈ l.dedup := List.mem_dedup.mpr hx
    have hall : ∀ c ∈ l.dedup, l.count c = l.count x := by
      intro c hc
      have h1 := hcnt4 c hc
      have h2 := hcnt4 x hxd
      omega
    have hsum := List.sum_map_count_dedup_eq_length l
    rw [sum_map_const_num l.dedup _ (l.count x) hall, hn] at hsum
    have hm1 : 0 < l.count x := List.count_pos_iff.mpr hx
    have hlen4 : l.dedup.length = 4 := by
      have h4 := hcnt4 x hxd
      have h5 : l.dedup.length * l.count x = 4 * l.count x := by omega
      exact Nat.eq_of_mul_eq_mul_right hm1 h5
    have hsub : l.dedup ⊆ atcg := fun c hc => halpha c (List.mem_dedup.mp hc)
    have hperm : l.dedup.Perm atcg :=
      List.Subperm.perm_of_length_le
        (List.Nodup.subperm (List.nodup_dedup l) hsub)
        (by rw [hlen4]; rfl)
    intro b hb
    have hbd : b ∈ l.dedup := hperm.mem_iff.mpr hb
    rw [counterGet_toCounter]
    exact hcnt b hbd
  · intro hb x hx
    obtain ⟨kv, hkv, rfl⟩ := List.mem_map.mp hx
    rw [toCounter] at hkv
    obtain ⟨c, hc, rfl⟩ := List.mem_map.mp hkv
    have hcl : c ∈ l := List.mem_dedup.mp hc
    have hcb := hb c (halpha c hcl)
    rw [counterGet_toCounter] at hcb
    have hz : (n : ℚ) / 4 - (l.count c : ℚ) = 0 := by linarith
    show |(n : ℚ) / 4 - (l.count c : ℚ)| = 0
    rw [hz, abs_zero]

/-- C7: on a non-empty pool of equal-length sequences over `{A,T,C,G}`,
the diversity score of its frequency table (with the number of
sequences as the total) is nonnegative, and it vanishes exactly when
every (position, base) count equals `totalSequences / 4`. -/
theorem diversity_score_nonneg_and_zero_iff (primers : List (List Char))
    (L : ℕ) (hne : primers ≠ []) (hlen : ∀ s ∈ primers, s.length = L)
    (halpha : ∀ s ∈ primers, ∀ c ∈ s, c ∈ atcg) :
    ∃ t, calculate_nucleotide_frequencies primers = .ok t ∧
      0 ≤ calculate_diversity_score t primers.length ∧
      (calculate_diversity_score t primers.length = 0 ↔
        ∀ pos ∈ t, ∀ b ∈ atcg,
          (counterGet pos b : ℚ) = (primers.length : ℚ) / 4) := by
  obtain ⟨p0, rest, rfl⟩ := List.exists_cons_of_ne_nil hne
  refine ⟨_, calc_freq_eq_of_eqlen p0 rest L hlen, ?_, ?_⟩
  · apply List.sum_nonneg
    intro x hx
    obtain ⟨pos, _, rfl⟩ := List.mem_map.mp hx
    apply List.sum_nonneg
    intro y hy
    obtain ⟨kv, _, rfl⟩ := List.mem_map.mp hy
    exact abs_nonneg _
  · have houter : ∀ x ∈ (((List.range L).map
        (fun i => toCounter (posChars (p0 :: rest) i))).map (fun pos =>
          (pos.map (fun kv =>
            |((p0 :: rest).length : ℚ) / 4 - (kv.2 : ℚ)|)).sum)), 0 ≤ x := by
      intro x hx
      obtain ⟨pos, _, rfl⟩ := List.mem_map.mp hx
      apply List.sum_nonneg
      intro y hy
      obtain ⟨kv, _, rfl⟩ := List.mem_map.mp hy
      exact abs_nonneg _
    rw [calculate_diversity_score, sum_eq_zero_iff_of_nonneg _ houter]
    constructor
    · intro h0 pos hpos b hb
      obtain ⟨i, hi, rfl⟩ := by
        simpa only [List.mem_map, List.mem_range] using hpos
      have hterm := h0 _ (List.mem_map_of_mem _ hpos)
      have hplen : (posChars (p0 :: rest) i).length = (p0 :: rest).length :=
        posChars_length L i hi (p0 :: rest) hlen
      have hpalpha : ∀ c ∈ posChars (p0 :: rest) i, c ∈ atcg := by
        intro c hc
        obtain ⟨s, hs, hsc⟩ := List.mem_filterMap.mp hc
        exact halpha s hs c (List.getElem?_mem hsc)
      exact (pos_score_zero_iff (posChars (p0 :: rest) i) (p0 :: rest).length
        hplen (by simp) hpalpha).mp hterm b hb
    · intro hall x hx
      obtain ⟨pos, hpos, rfl⟩ := List.mem_map.mp hx
      obtain ⟨i, hi, rfl⟩ := by
        simpa only [List.mem_map, List.mem_range] using hpos
      have hplen : (posChars (p0 :: rest) i).length = (p0 :: rest).length :=
        posChars_length L i hi (p0 :: rest) hlen
      have hpalpha : ∀ c ∈ posChars (p0 :: rest) i, c ∈ atcg := by
        intro c hc
        obtain ⟨s, hs, hsc⟩ := List.mem_filterMap.mp hc
        exact halpha s hs c (List.getElem?_mem hsc)
      exact (pos_score_zero_iff (posChars (p0 :: rest) i) (p0 :: rest).length
        hplen (by simp) hpalpha).mpr (hall _ hpos)

/-- C7 witness: the one-position pool `{A, T, C, G}` scores zero and is
perfectly uniform. -/
theorem diversity_score_nonneg_and_zero_iff_witness :
    ∃ t, calculate_nucleotide_frequencies [['A'], ['T'], ['C'], ['G']] = .ok t ∧
      0 ≤ calculate_diversity_score t
        ([['A'], ['T'], ['C'], ['G']] : List (List Char)).length ∧
      (calculate_diversity_score t
        ([['A'], ['T'], ['C'], ['G']] : List (List Char)).length = 0 ↔
        ∀ pos ∈ t, ∀ b ∈ atcg, (counterGet pos b : ℚ) =
          (([['A'], ['T'], ['C'], ['G']] : List (List Char)).length : ℚ) / 4) :=
  diversity_score_nonneg_and_zero_iff [['A'], ['T'], ['C'], ['G']] 1
    (by decide) (by decide) (by decide)

/-! Supporting lemmas for `optimal_primer_counts`. -/

theorem ceilDiv_mul_ge (n i : ℕ) (hi : 0 < i) : n ≤ i * ceilDiv n i := by
  have h1 : i * ((n + i - 1) / i) + (n + i - 1) % i = n + i - 1 :=
    Nat.div_add_mod _ _
  have h2 : (n + i - 1) % i < i := Nat.mod_lt _ hi
  unfold ceilDiv
  omega

theorem ceilDiv_le (n a b : ℕ) (ha : 0 < a) (h : n ≤ a * b) :
    ceilDiv n a ≤ b := by
  unfold ceilDiv
  rw [Nat.div_le_iff_le_mul_add_pred ha]
  omega

theorem opcLoop_succ (n mf mr i : ℕ) :
    opcLoop n mf mr (i + 1) =
      if i + 1 ≤ mf ∧ ceilDiv n (i + 1) ≤ mr then some (i + 1, ceilDiv n (i + 1))
      else if ceilDiv n (i + 1) ≤ mf ∧ i + 1 ≤ mr then some (ceilDiv n (i + 1), i + 1)
      else opcLoop n mf mr i := rfl

theorem opcLoop_sound (n mf mr : ℕ) :
    ∀ f a b, opcLoop n mf mr f = some (a, b) →
      n ≤ a * b ∧ a ≤ mf ∧ b ≤ mr := by
  intro f
  induction f with
  | zero => intro a b h; cases h
  | succ i ih =>
      intro a b h
      rw [opcLoop_succ] at h
      split_ifs at h with h1 h2
      · injection Option.some.inj h with ha hb
        subst ha
        subst hb
        exact ⟨ceilDiv_mul_ge n (i + 1) (Nat.succ_pos i), h1.1, h1.2⟩
      · injection Option.some.inj h with ha hb
        subst ha
        subst hb
        refine ⟨?_, h2.1, h2.2⟩
        rw [mul_comm]
        exact ceilDiv_mul_ge n (i + 1) (Nat.succ_pos i)
      · exact ih a b h

theorem opcLoop_none (n mf mr : ℕ) :
    ∀ f, opcLoop n mf mr f = none →
      ∀ i, 1 ≤ i → i ≤ f →
        ¬(i ≤ mf ∧ ceilDiv n i ≤ mr) ∧ ¬(ceilDiv n i ≤ mf ∧ i ≤ mr) := by
  intro f
  induction f with
  | zero => intro _ i h1 h2; omega
  | succ j ih =>
      intro h i h1 h2
      rw [opcLoop_succ] at h
      split_ifs at h with hc1 hc2
      rcases Nat.lt_succ_iff_lt_or_eq.mp (Nat.lt_succ_of_le h2) with hlt | rfl
      · exact ih h i h1 (by omega)
      · exact ⟨hc1, hc2⟩

theorem optimal_counts_sound (n mf mr : ℕ) (hn : 1 ≤ n) (h : n ≤ mf * mr) :
    n ≤ (optimal_primer_counts n mf mr).1 * (optimal_primer_counts n mf mr).2 ∧
    (optimal_primer_counts n mf mr).1 ≤ mf ∧
    (optimal_primer_counts n mf mr).2 ≤ mr := by
  have hmf : 0 < mf := by
    rcases Nat.eq_zero_or_pos mf with rfl | h2
    · simp at h; omega
    · exact h2
  have hmr : 0 < mr := by
    rcases Nat.eq_zero_or_pos mr with rfl | h2
    · simp at h; omega
    · exact h2
  rcases hres : opcLoop n mf mr (Nat.sqrt n) with _ | ⟨a, b⟩
  · have hnone := opcLoop_none n mf mr (Nat.sqrt n) hres
    have hlt : Nat.sqrt n < min mf mr := by
      by_contra hge
      push_neg at hge
      have hminpos : 1 ≤ min mf mr := by omega
      have h2 := hnone (min mf mr) hminpos hge
      rcases le_total mf mr with hle | hle
      · rw [min_eq_left hle] at h2
        exact h2.1 ⟨le_refl mf, ceilDiv_le n mf mr hmf h⟩
      · rw [min_eq_right hle] at h2
        have hcomm : n ≤ mr * mf := by
          have := Nat.mul_comm mf mr
          omega
        exact h2.2 ⟨ceilDiv_le n mr mf hmr hcomm, le_refl mr⟩
    simp only [optimal_primer_counts, hres]
    refine ⟨?_, min_le_left mf mr, min_le_right mf mr⟩
    have hltmul : n < (Nat.sqrt n + 1) * (Nat.sqrt n + 1) := Nat.lt_succ_sqrt n
    have hmulle : (Nat.sqrt n + 1) * (Nat.sqrt n + 1) ≤ min mf mr * min mf mr :=
      Nat.mul_le_mul hlt hlt
    exact le_of_lt (lt_of_lt_of_le hltmul hmulle)
  · simp only [optimal_primer_counts, hres]
    exact opcLoop_sound n mf mr (Nat.sqrt n) a b hres

theorem sqrt_twelve : Nat.sqrt 12 = 3 := by
  have h1 : 3 ≤ Nat.sqrt 12 := Nat.le_sqrt.mpr (by norm_num)
  have h2 : Nat.sqrt 12 < 4 := Nat.sqrt_lt.mpr (by norm_num)
  omega

theorem opcLoop_twelve (mf mr : ℕ) :
    opcLoop 12 mf mr 3 =
      if 3 ≤ mf ∧ 4 ≤ mr then some (3, 4)
      else if 4 ≤ mf ∧ 3 ≤ mr then some (4, 3)
      else opcLoop 12 mf mr 2 := rfl

theorem optimal_counts_12_when_3_4 (mf mr : ℕ) (h3 : 3 ≤ mf) (h4 : 4 ≤ mr) :
    optimal_primer_counts 12 mf mr = (3, 4) := by
  rw [optimal_primer_counts, sqrt_twelve, opcLoop_twelve, if_pos ⟨h3, h4⟩]

theorem optimal_counts_12_when_4_3 (mf mr : ℕ) (h4 : 4 ≤ mf) (h3 : 3 ≤ mr) :
    optimal_primer_counts 12 mf mr = (3, 4) ∨
    optimal_primer_counts 12 mf mr = (4, 3) := by
  by_cases hmr : 4 ≤ mr
  · exact Or.inl (optimal_counts_12_when_3_4 mf mr (by omega) hmr)
  · right
    have hc1 : ¬(3 ≤ mf ∧ 4 ≤ mr) := fun hc => hmr hc.2
    rw [optimal_primer_counts, sqrt_twelve, opcLoop_twelve, if_neg hc1,
      if_pos ⟨h4, h3⟩]

/-- C5: whenever the requested pair count is at least 1 and fits in the
pool capacities, `optimal_primer_counts` returns a pair of counts whose
product covers the request within the capacities; for a request of 12
with capacities at least 3 and 4 it returns (3, 4) or (4, 3). -/
theorem optimal_primer_counts_correct :
    (∀ n mf mr : ℕ, 1 ≤ n → n ≤ mf * mr →
      n ≤ (optimal_primer_counts n mf mr).1 * (optimal_primer_counts n mf mr).2 ∧
      (optimal_primer_counts n mf mr).1 ≤ mf ∧
      (optimal_primer_counts n mf mr).2 ≤ mr) ∧
    (∀ mf mr : ℕ, 3 ≤ mf → 4 ≤ mr → optimal_primer_counts 12 mf mr = (3, 4)) ∧
    (∀ mf mr : ℕ, 4 ≤ mf → 3 ≤ mr →
      optimal_primer_counts 12 mf mr = (3, 4) ∨
      optimal_primer_counts 12 mf mr = (4, 3)) :=
  ⟨optimal_counts_sound, optimal_counts_12_when_3_4, optimal_counts_12_when_4_3⟩

/-- C5 witness: the sizing function evaluated for 12 pairs with pool
capacities 3 and 4. -/
theorem optimal_primer_counts_correct_witness :
    optimal_primer_counts 12 3 4 = (3, 4) :=
  optimal_primer_counts_correct.2.1 3 4 (by norm_num) (by norm_num)

/-! The C1 evaluation: a two-trial run in which the first trial wins
but the frequency table of the second (last) trial is returned. -/

theorem sop_score_mixed :
    calculate_diversity_score (List.replicate 8 [('A', 1), ('T', 1)]) 2 = 8 := by
  simp [calculate_diversity_score, List.map_replicate, List.sum_replicate]
  norm_num [abs_of_nonpos, abs_of_nonneg]

theorem sop_score_pure :
    calculate_diversity_score (List.replicate 8 [('A', 2)]) 2 = 12 := by
  simp [calculate_diversity_score, List.map_replicate, List.sum_replicate]
  norm_num [abs_of_nonneg]

theorem sop_step_one :
    sopStep [("F1", List.replicate 8 'A')]
        [("R1", List.replicate 8 'T'), ("R2", List.replicate 8 'A')] 1 1
        (none, none, none) (["F1"], ["R1"]) =
      .ok (some 8,
           some ([("F1", List.replicate 8 'A')], [("R1", List.replicate 8 'T')]),
           some (List.replicate 8 [('A', 1), ('T', 1)])) := by
  have hpre : sopStep [("F1", List.replicate 8 'A')]
      [("R1", List.replicate 8 'T'), ("R2", List.replicate 8 'A')] 1 1
      (none, none, none) (["F1"], ["R1"]) =
    .ok (some (calculate_diversity_score (List.replicate 8 [('A', 1), ('T', 1)]) 2),
         some ([("F1", List.replicate 8 'A')], [("R1", List.replicate 8 'T')]),
         some (List.replicate 8 [('A', 1), ('T', 1)])) := rfl
  rw [hpre, sop_score_mixed]

theorem sop_step_two :
    sopStep [("F1", List.replicate 8 'A')]
        [("R1", List.replicate 8 'T'), ("R2", List.replicate 8 'A')] 1 1
        (some 8,
         some ([("F1", List.replicate 8 'A')], [("R1", List.replicate 8 'T')]),
         some (List.replicate 8 [('A', 1), ('T', 1)]))
        (["F1"], ["R2"]) =
      .ok (some 8,
           some ([("F1", List.replicate 8 'A')], [("R1", List.replicate 8 'T')]),
           some (List.replicate 8 [('A', 2)])) := by
  have hpre : sopStep [("F1", List.replicate 8 'A')]
      [("R1", List.replicate 8 'T'), ("R2", List.replicate 8 'A')] 1 1
      (some 8,
       some ([("F1", List.replicate 8 'A')], [("R1", List.replicate 8 'T')]),
       some (List.replicate 8 [('A', 1), ('T', 1)]))
      (["F1"], ["R2"]) =
    if isBetter (some 8)
        (calculate_diversity_score (List.replicate 8 [('A', 2)]) 2) then
      .ok (some (calculate_diversity_score (List.replicate 8 [('A', 2)]) 2),
           some ([("F1", List.replicate 8 'A')], [("R2", List.replicate 8 'A')]),
           some (List.replicate 8 [('A', 2)]))
    else
      .ok (some 8,
           some ([("F1", List.replicate 8 'A')], [("R1", List.replicate 8 'T')]),
           some (List.replicate 8 [('A', 2)])) := rfl
  have hbet : isBetter (some 8)
      (calculate_diversity_score (List.replicate 8 [('A', 2)]) 2) = false := by
    simp only [isBetter, sop_score_pure]
    norm_num
  rw [hpre, hbet]
  simp

/-- C1 evaluation: on a two-trial run, `select_optimal_primers` returns
the first trial as the best combination with its score 8, yet returns
the frequency table of the second (last) trial; the combined table of
the best combination it returns differs from the table it returns. -/
theorem sop_returns_last_table_not_best :
    select_optimal_primers [("F1", List.replicate 8 'A')]
        [("R1", List.replicate 8 'T'), ("R2", List.replicate 8 'A')] 1 1
        [(["F1"], ["R1"]), (["F1"], ["R2"])] =
      .ok (some ([("F1", List.replicate 8 'A')], [("R1", List.replicate 8 'T')]),
           some 8, some (List.replicate 8 [('A', 2)])) ∧
    (do
      let f ← freqOfPool [("F1", List.replicate 8 'A')]
      let g ← freqOfPool [("R1", List.replicate 8 'T')]
      combine8 f g) = Except.ok (List.replicate 8 [('A', 1), ('T', 1)]) ∧
    (List.replicate 8 [('A', 1), ('T', 1)] : List Counter) ≠
      List.replicate 8 [('A', 2)] := by
  refine ⟨?_, rfl, by decide⟩
  have hfold : List.foldlM
      (sopStep [("F1", List.replicate 8 'A')]
        [("R1", List.replicate 8 'T'), ("R2", List.replicate 8 'A')] 1 1)
      ((none, none, none) : SOPState)
      [(["F1"], ["R1"]), (["F1"], ["R2"])] =
      .ok (some 8,
           some ([("F1", List.replicate 8 'A')], [("R1", List.replicate 8 'T')]),
           some (List.replicate 8 [('A', 2)])) := by
    rw [List.foldlM_cons, sop_step_one]
    show List.foldlM
      (sopStep [("F1", List.replicate 8 'A')]
        [("R1", List.replicate 8 'T'), ("R2", List.replicate 8 'A')] 1 1)
      (some 8,
       some ([("F1", List.replicate 8 'A')], [("R1", List.replicate 8 'T')]),
       some (List.replicate 8 [('A', 1), ('T', 1)]))
      [(["F1"], ["R2"])] = _
    rw [List.foldlM_cons, sop_step_two]
    show List.foldlM
      (sopStep [("F1", List.replicate 8 'A')]
        [("R1", List.replicate 8 'T'), ("R2", List.replicate 8 'A')] 1 1)
      (some 8,
       some ([("F1", List.replicate 8 'A')], [("R1", List.replicate 8 'T')]),
       some (List.replicate 8 [('A', 2)]))
      [] = _
    rfl
  simp only [select_optimal_primers]
  rw [hfold]
  rfl

end PrimerPairs
